import Mathlib

/-!
Shallow embedding of the Wilcoxon rank-sum core of the `basic-stats` Rust
crate (`src/wilcoxon.rs`, `src/core/iter.rs`, `src/core/base.rs`).

Modelling conventions:
* `f64` data values are modelled as `ℚ` (all claims are exact algebraic
  identities / comparisons; no rounding or NaN behaviour is at stake).
* `u64` counts and sizes are modelled as `ℕ`; `u64` subtraction `count - 1`
  (which in release mode wraps and is then multiplied by `count`, giving `0`
  when `count = 0`) is modelled by truncated `ℕ` subtraction, which agrees.
* Iterators are modelled as `List`s consumed from the head.
* Fallible Rust functions returning `Result<_, StatsError>` are modelled as
  `Except String _` carrying the error message.
-/

/-- Groups the consecutive equal values of the tail of a source sequence,
given the previously fetched value `prev` and the run length `count`
accumulated for it so far.  This is the state of `IterWithCounts::next`
(`src/core/iter.rs`): `prev`/`count` correspond to `self.prev_value` and the
local `count`, the list argument is what remains of `self.source`. -/
def iterWithCountsAux {α : Type} [DecidableEq α] (prev : α) (count : ℕ) :
    List α → List (α × ℕ)
  | [] => [(prev, count)]
  | v :: rest =>
    if v = prev then iterWithCountsAux prev (count + 1) rest
    else (prev, count) :: iterWithCountsAux v 1 rest

/-- `iter_with_counts` (`src/core/iter.rs`): transforms a sequence of values
into the sequence of `(value, run length)` pairs of its maximal runs of
consecutive equal values. -/
def iter_with_counts {α : Type} [DecidableEq α] : List α → List (α × ℕ)
  | [] => []
  | v :: rest => iterWithCountsAux v 1 rest

/-- The result state of `RankSum::from_iter_with_counts`
(`src/wilcoxon.rs`): sample sizes, the Y rank sum `w`, and the tie
accumulator. -/
structure RankSum where
  n_x : ℕ
  n_y : ℕ
  w : ℚ
  ties_sum_prod : ℕ
deriving Repr, DecidableEq

/-- The accumulator state of the merge loop in
`RankSum::from_iter_with_counts`: the final sizes `n_x`, `n_y`, the tie
accumulator `ties_sum_prod`, the two running rank sums and the running rank
boundary `prev_rank`. -/
structure MergeAcc where
  n_x : ℕ
  n_y : ℕ
  ties_sum_prod : ℕ
  rank_sum_x : ℚ
  rank_sum_y : ℚ
  prev_rank : ℚ
deriving Repr, DecidableEq

/-- The error message of the ordering check in `RankSum::from_iter_with_counts`. -/
def orderErrMsg : String := "invalid iterator argument: items not ordered properly"

/-- `enforce_order` (`src/wilcoxon.rs` lines 37-52): compares the previously
fetched item of one input iterator with the freshly fetched one and fails
unless the value strictly increased; returns the new `prev_item` contents. -/
def enforce_order (prev_item curr_item : Option (ℚ × ℕ)) :
    Except String (Option (ℚ × ℕ)) :=
  match prev_item, curr_item with
  | some prev, some curr =>
    if prev.1 < curr.1 then .ok curr_item else .error orderErrMsg
  | none, some _ => .ok curr_item
  | _, none => .ok prev_item

/-- The tie-accumulator increment `(count - 1) * count * (count + 1)` of
`rank_item` (`src/wilcoxon.rs` line 72); `ℕ` subtraction matches the release
`u64` behaviour (the product is `0` when `count = 0`). -/
def tieTerm (count : ℕ) : ℕ := (count - 1) * count * (count + 1)

/-- The pure arithmetic of `rank_item` (`src/wilcoxon.rs` lines 55-74): for a
cohort with `count_i` items on the advancing side and `count_other` tied items
on the other side, returns the advancing side's rank-sum contribution
`count_i * rank` with midrank `rank = prev_rank + (count + 1) / 2`, and the
advanced boundary `prev_rank + count`, where `count = count_i + count_other`.
(The iterator advance, its `enforce_order` check and the `ties_sum_prod`
increment performed by the Rust `rank_item` are inlined at the call sites in
`merge_loop`.) -/
def rank_item (count_i count_other : ℕ) (prev_rank : ℚ) : ℚ × ℚ :=
  let count := count_i + count_other
  let rank := prev_rank + ((count : ℚ) + 1) / 2
  let rank_sum := (count_i : ℚ) * rank
  let new_prev_rank := prev_rank + (count : ℚ)
  (rank_sum, new_prev_rank)

/-- The accumulator update of the X-advancing branches of the merge loop
(`src/wilcoxon.rs` lines 88-116): consume the current X cohort `ix` alone
(`count_other = 0`), add its rank sum and tie term, advance the boundary. -/
def xUpd (acc : MergeAcc) (ix : ℚ × ℕ) : MergeAcc :=
  { acc with
    n_x := acc.n_x + ix.2
    ties_sum_prod := acc.ties_sum_prod + tieTerm (ix.2 + 0)
    rank_sum_x := acc.rank_sum_x + (rank_item ix.2 0 acc.prev_rank).1
    prev_rank := (rank_item ix.2 0 acc.prev_rank).2 }

/-- The accumulator update of the Y-advancing branches of the merge loop
(`src/wilcoxon.rs` lines 118-146), symmetric to `xUpd`. -/
def yUpd (acc : MergeAcc) (iy : ℚ × ℕ) : MergeAcc :=
  { acc with
    n_y := acc.n_y + iy.2
    ties_sum_prod := acc.ties_sum_prod + tieTerm (iy.2 + 0)
    rank_sum_y := acc.rank_sum_y + (rank_item iy.2 0 acc.prev_rank).1
    prev_rank := (rank_item iy.2 0 acc.prev_rank).2 }

/-- The accumulator update of the tied branch of the merge loop
(`src/wilcoxon.rs` lines 148-176): `rank_item` is invoked once per side with
the same `prev_rank` and with `(count_i, count_other)` equal to
`(ix.2, iy.2)` for X and `(iy.2, ix.2)` for Y, so the tie term is added
once per side; the boundary advance is taken from the Y invocation. -/
def tUpd (acc : MergeAcc) (ix iy : ℚ × ℕ) : MergeAcc :=
  { n_x := acc.n_x + ix.2
    n_y := acc.n_y + iy.2
    ties_sum_prod := acc.ties_sum_prod + tieTerm (ix.2 + iy.2) + tieTerm (iy.2 + ix.2)
    rank_sum_x := acc.rank_sum_x + (rank_item ix.2 iy.2 acc.prev_rank).1
    rank_sum_y := acc.rank_sum_y + (rank_item iy.2 ix.2 acc.prev_rank).1
    prev_rank := (rank_item iy.2 ix.2 acc.prev_rank).2 }

/-- The main loop of `RankSum::from_iter_with_counts` (`src/wilcoxon.rs`
lines 84-180).  The Rust state `(item_opt_i, itc_i, prev_item_i)` of each side
is represented by a single list `l`: the current item is `l.head?`, the rest
of the iterator is `l.tail`, and `prev_item_i` always equals the most recently
fetched item, i.e. `l.head?` while the side is live (once a side is exhausted
its stale `prev_item_i` is never compared again, so it is dropped).  Fetching
the next item and checking order (`rank_item` lines 70-71) therefore becomes
`enforce_order (some consumed) rest.head?`. -/
def merge_loop (lx ly : List (ℚ × ℕ)) (acc : MergeAcc) : Except String MergeAcc :=
  match lx, ly with
  | ix :: lx', [] =>
    match enforce_order (some ix) lx'.head? with
    | .error e => .error e
    | .ok _ => merge_loop lx' [] (xUpd acc ix)
  | [], iy :: ly' =>
    match enforce_order (some iy) ly'.head? with
    | .error e => .error e
    | .ok _ => merge_loop [] ly' (yUpd acc iy)
  | ix :: lx', iy :: ly' =>
    if ix.1 < iy.1 then
      match enforce_order (some ix) lx'.head? with
      | .error e => .error e
      | .ok _ => merge_loop lx' (iy :: ly') (xUpd acc ix)
    else if iy.1 < ix.1 then
      match enforce_order (some iy) ly'.head? with
      | .error e => .error e
      | .ok _ => merge_loop (ix :: lx') ly' (yUpd acc iy)
    else
      -- if item_x.0 == item_y.0: a joint tied cohort.
      match enforce_order (some ix) lx'.head? with
      | .error e => .error e
      | .ok _ =>
        match enforce_order (some iy) ly'.head? with
        | .error e => .error e
        | .ok _ => merge_loop lx' ly' (tUpd acc ix iy)
  | [], [] => .ok acc
termination_by lx.length + ly.length
decreasing_by all_goals simp +arith

/-- The initial accumulator of the merge loop (all counters and sums `0`). -/
def mergeInit : MergeAcc := ⟨0, 0, 0, 0, 0, 0⟩

/-- `RankSum::from_iter_with_counts` (`src/wilcoxon.rs` lines 76-191): runs
the merge loop from the zero state and packages the result (the initial
`enforce_order` calls with `prev_item = None` always succeed and only set
`prev_item`, which the list representation performs implicitly). -/
def RankSum.from_iter_with_counts (itc_x itc_y : List (ℚ × ℕ)) :
    Except String RankSum :=
  match merge_loop itc_x itc_y mergeInit with
  | .error e => .error e
  | .ok acc => .ok ⟨acc.n_x, acc.n_y, acc.rank_sum_y, acc.ties_sum_prod⟩

/-- `RankSum::from_iter` (`src/wilcoxon.rs` lines 206-213): groups each raw
sample with `iter_with_counts` and merges. -/
def RankSum.from_iter (it_x it_y : List ℚ) : Except String RankSum :=
  RankSum.from_iter_with_counts (iter_with_counts it_x) (iter_with_counts it_y)

/-- `RankSum::mann_whitney_u_y` (`src/wilcoxon.rs`): `w - n_y (n_y + 1) / 2`. -/
def RankSum.mann_whitney_u_y (rs : RankSum) : ℚ :=
  rs.w - (rs.n_y : ℚ) * ((rs.n_y : ℚ) + 1) / 2

/-- `RankSum::mann_whitney_u_x` (`src/wilcoxon.rs`): `n_x n_y - U_y`. -/
def RankSum.mann_whitney_u_x (rs : RankSum) : ℚ :=
  (rs.n_x : ℚ) * (rs.n_y : ℚ) - rs.mann_whitney_u_y

/-- `RankSum::mann_whitney_u` (`src/wilcoxon.rs`): the min of the two `U`s. -/
def RankSum.mann_whitney_u (rs : RankSum) : ℚ :=
  min rs.mann_whitney_u_y rs.mann_whitney_u_x

/-- The null expectation `e0_w = n_y (n_x + n_y + 1) / 2` computed inside
`RankSum::z` (`src/wilcoxon.rs` lines 264-276). -/
def RankSum.e0_w (rs : RankSum) : ℚ :=
  (rs.n_y : ℚ) * ((rs.n_x : ℚ) + (rs.n_y : ℚ) + 1) / 2

/-- The tie-corrected null variance `var0_w` computed inside `RankSum::z`
(`src/wilcoxon.rs` lines 264-276):
`n_x n_y (n_x + n_y + 1)/12 - n_x n_y / (12 (n_x+n_y) (n_x+n_y-1)) * ties_sum_prod`. -/
def RankSum.var0_w (rs : RankSum) : ℚ :=
  (rs.n_x : ℚ) * (rs.n_y : ℚ) * ((rs.n_x : ℚ) + (rs.n_y : ℚ) + 1) / 12 -
    (rs.n_x : ℚ) * (rs.n_y : ℚ) /
        (12 * ((rs.n_x : ℚ) + (rs.n_y : ℚ)) * ((rs.n_x : ℚ) + (rs.n_y : ℚ) - 1)) *
      (rs.ties_sum_prod : ℕ)

/-- A grouped sequence is properly ordered when every pair of consecutively
emitted groups has strictly increasing values — exactly the condition
`enforce_order` checks along the way. -/
def SortedPairs (l : List (ℚ × ℕ)) : Prop :=
  List.Chain' (fun a b : ℚ × ℕ => a.1 < b.1) l

instance : DecidablePred SortedPairs := fun l =>
  inferInstanceAs (Decidable (List.Chain' _ l))

/-- Reference tie sum over the distinct values of the combined samples, for
grouped inputs that are strictly increasing within each side: each distinct
value `v` with per-side multiplicities `cx`, `cy` (zero when absent from a
side) contributes `tieTerm (cx + cy)`, weighted by `w_both` when `v` occurs in
both samples and by `1` otherwise.  `ties_ref 1` is the sum described by the
spec (each distinct combined value contributing exactly once); `ties_ref 2`
weights the values shared by both samples twice (once per side). -/
def ties_ref (w_both : ℕ) : List (ℚ × ℕ) → List (ℚ × ℕ) → ℕ
  | [], [] => 0
  | i :: xs, [] => tieTerm i.2 + ties_ref w_both xs []
  | [], j :: ys => tieTerm j.2 + ties_ref w_both [] ys
  | i :: xs, j :: ys =>
    if i.1 < j.1 then tieTerm i.2 + ties_ref w_both xs (j :: ys)
    else if j.1 < i.1 then tieTerm j.2 + ties_ref w_both (i :: xs) ys
    else w_both * tieTerm (i.2 + j.2) + ties_ref w_both xs ys
termination_by lx ly => lx.length + ly.length
decreasing_by all_goals simp +arith

/-- `AltHyp` (`src/core/base.rs`): the alternative hypothesis. -/
inductive AltHyp : Type
  | Lt
  | Gt
  | Ne
deriving Repr, DecidableEq

/-- `Hyp` (`src/core/base.rs`): the hypothesis accepted by a test. -/
inductive Hyp : Type
  | Null
  | Alt (h : AltHyp)
deriving Repr, DecidableEq

/-- `HypTestResult` (`src/core/base.rs`): a test's p-value, alpha,
alternative hypothesis and accepted hypothesis. -/
structure HypTestResult where
  p : ℚ
  alpha : ℚ
  alt_hyp : AltHyp
  accepted : Hyp
deriving Repr, DecidableEq

/-- `HypTestResult::new` (`src/core/base.rs` lines 273-292): stores the
arguments and accepts `Alt(alt_hyp)` exactly when `p < alpha`, `Null`
otherwise. -/
def HypTestResult.new (p alpha : ℚ) (alt_hyp : AltHyp) : HypTestResult :=
  { p := p
    alpha := alpha
    alt_hyp := alt_hyp
    accepted := if p < alpha then .Alt alt_hyp else .Null }

/-- Modelled from the spec: the checked `z()` of §4.4 and §7 (the
`Result`-returning `RankSum::z` exercised by `tests/wilcoxon_errors.rs` is
not part of the sources; `src/wilcoxon.rs` only contains the unchecked float
version).  It requires `n_x > 0` and `n_y > 0`, fails with a "too many rank
ties" error when the tie-corrected variance `var0_w` is `≤ 0`, and otherwise
returns `-(w - e0_w) / sqrt var0_w`. -/
noncomputable def RankSum.z_checked (rs : RankSum) : Except String ℝ :=
  if rs.n_x = 0 ∨ rs.n_y = 0 then .error "sample size must be positive"
  else if rs.var0_w ≤ 0 then .error "too many rank ties"
  else .ok (-(((rs.w : ℝ) - (rs.e0_w : ℝ)) / Real.sqrt (rs.var0_w : ℝ)))

/-- Modelled from the spec: `test(alt_hyp, alpha)` of §4.4 (the
`Result`-returning test exercised as `z_test` by `tests/wilcoxon_errors.rs`
is not part of the sources; `src/wilcoxon.rs`'s `test` performs no `alpha`
check).  It requires `alpha` strictly inside `(0, 1)` (fails otherwise), then
computes the p-value — abstracted here as the external collaborator `zp`,
i.e. `z()` composed with the `NormalTail` collaborator `z_to_p` — and builds
the `HypTestResult` from it. -/
def RankSum.test (zp : RankSum → AltHyp → Except String ℚ) (rs : RankSum)
    (alt_hyp : AltHyp) (alpha : ℚ) : Except String HypTestResult :=
  if alpha ≤ 0 ∨ 1 ≤ alpha then .error "alpha must be in the open interval (0, 1)"
  else
    match zp rs alt_hyp with
    | .error e => .error e
    | .ok p => .ok (HypTestResult.new p alpha alt_hyp)

/-- The loop invariant of the merge: the rank boundary equals the number of
items consumed so far, the two rank sums together exhaust the ranks
`1, …, prev_rank`, and the Y rank sum is bracketed between the sum of the
`n_y` smallest and the `n_y` largest ranks handed out so far. -/
def MergeInv (acc : MergeAcc) : Prop :=
  acc.prev_rank = (acc.n_x : ℚ) + (acc.n_y : ℚ) ∧
  acc.rank_sum_x + acc.rank_sum_y = acc.prev_rank * (acc.prev_rank + 1) / 2 ∧
  (acc.n_y : ℚ) * ((acc.n_y : ℚ) + 1) / 2 ≤ acc.rank_sum_y ∧
  acc.rank_sum_y ≤ (acc.n_y : ℚ) * acc.prev_rank - (acc.n_y : ℚ) * ((acc.n_y : ℚ) - 1) / 2

/-- Generic numeric form of one merge step: a cohort of `cx` X items and `cy`
Y items tied together receives the common midrank and advances the boundary
by `cx + cy`.  The solo branches are the instances `cy = 0` / `cx = 0`. -/
def gUpd (acc : MergeAcc) (cx cy T : ℕ) : MergeAcc :=
  { n_x := acc.n_x + cx
    n_y := acc.n_y + cy
    ties_sum_prod := T
    rank_sum_x := acc.rank_sum_x + (cx : ℚ) * (acc.prev_rank + (((cx + cy : ℕ) : ℚ) + 1) / 2)
    rank_sum_y := acc.rank_sum_y + (cy : ℚ) * (acc.prev_rank + (((cx + cy : ℕ) : ℚ) + 1) / 2)
    prev_rank := acc.prev_rank + ((cx + cy : ℕ) : ℚ) }

lemma mergeInv_gUpd (acc : MergeAcc) (cx cy T : ℕ) (h : MergeInv acc) : MergeInv (gUpd acc cx cy T) := by
  obtain ⟨h1, h2, h3, h4⟩ := h
  have hx : (0 : ℚ) ≤ (acc.n_x : ℚ) := Nat.cast_nonneg _
  have hy : (0 : ℚ) ≤ (acc.n_y : ℚ) := Nat.cast_nonneg _
  have hcx : (0 : ℚ) ≤ (cx : ℚ) := Nat.cast_nonneg _
  have hcy : (0 : ℚ) ≤ (cy : ℚ) := Nat.cast_nonneg _
  refine ⟨?_, ?_, ?_, ?_⟩ <;> simp only [gUpd] <;> push_cast
  · linarith
  · linear_combination h2
  · nlinarith [mul_nonneg hcy hcx, mul_nonneg hcy hx]
  · nlinarith [mul_nonneg hy hcx, mul_nonneg hcy hcx]

lemma xUpd_eq_gUpd (acc : MergeAcc) (ix : ℚ × ℕ) :
    xUpd acc ix = gUpd acc ix.2 0 (acc.ties_sum_prod + tieTerm (ix.2 + 0)) := by
  simp [xUpd, gUpd, rank_item]

lemma yUpd_eq_gUpd (acc : MergeAcc) (iy : ℚ × ℕ) :
    yUpd acc iy = gUpd acc 0 iy.2 (acc.ties_sum_prod + tieTerm (iy.2 + 0)) := by
  simp [yUpd, gUpd, rank_item]

lemma tUpd_eq_gUpd (acc : MergeAcc) (ix iy : ℚ × ℕ) :
    tUpd acc ix iy =
      gUpd acc ix.2 iy.2 (acc.ties_sum_prod + tieTerm (ix.2 + iy.2) + tieTerm (iy.2 + ix.2)) := by
  simp [tUpd, gUpd, rank_item, Nat.add_comm iy.2 ix.2]

/-- The merge loop preserves the invariant along every successful run. -/
lemma merge_loop_mergeInv (lx ly : List (ℚ × ℕ)) (acc out : MergeAcc)
    (h : merge_loop lx ly acc = .ok out) (hinv : MergeInv acc) : MergeInv out := by
  match lx, ly with
  | [], [] =>
    rw [merge_loop] at h
    cases h
    exact hinv
  | ix :: lx', [] =>
    rw [merge_loop] at h
    cases henf : enforce_order (some ix) lx'.head? with
    | error e => rw [henf] at h; cases h
    | ok p =>
      rw [henf] at h
      exact merge_loop_mergeInv lx' [] _ out h (xUpd_eq_gUpd acc ix ▸ mergeInv_gUpd acc ix.2 0 _ hinv)
  | [], iy :: ly' =>
    rw [merge_loop] at h
    cases henf : enforce_order (some iy) ly'.head? with
    | error e => rw [henf] at h; cases h
    | ok p =>
      rw [henf] at h
      exact merge_loop_mergeInv [] ly' _ out h (yUpd_eq_gUpd acc iy ▸ mergeInv_gUpd acc 0 iy.2 _ hinv)
  | ix :: lx', iy :: ly' =>
    rw [merge_loop] at h
    by_cases hlt : ix.1 < iy.1
    · rw [if_pos hlt] at h
      cases henf : enforce_order (some ix) lx'.head? with
      | error e => rw [henf] at h; cases h
      | ok p =>
        rw [henf] at h
        exact merge_loop_mergeInv lx' (iy :: ly') _ out h
          (xUpd_eq_gUpd acc ix ▸ mergeInv_gUpd acc ix.2 0 _ hinv)
    · rw [if_neg hlt] at h
      by_cases hgt : iy.1 < ix.1
      · rw [if_pos hgt] at h
        cases henf : enforce_order (some iy) ly'.head? with
        | error e => rw [henf] at h; cases h
        | ok p =>
          rw [henf] at h
          exact merge_loop_mergeInv (ix :: lx') ly' _ out h
            (yUpd_eq_gUpd acc iy ▸ mergeInv_gUpd acc 0 iy.2 _ hinv)
      · rw [if_neg hgt] at h
        cases henfx : enforce_order (some ix) lx'.head? with
        | error e => rw [henfx] at h; cases h
        | ok p =>
          rw [henfx] at h
          cases henfy : enforce_order (some iy) ly'.head? with
          | error e => rw [henfy] at h; cases h
          | ok q =>
            rw [henfy] at h
            exact merge_loop_mergeInv lx' ly' _ out h
              (tUpd_eq_gUpd acc ix iy ▸ mergeInv_gUpd acc ix.2 iy.2 _ hinv)
termination_by lx.length + ly.length
decreasing_by all_goals simp +arith

/-- Along every successful run, the merge loop adds to `ties_sum_prod` the
per-side-weighted tie sum of the remaining input: solo values once, values
shared by both samples twice. -/
lemma merge_loop_ties (lx ly : List (ℚ × ℕ)) (acc out : MergeAcc)
    (h : merge_loop lx ly acc = .ok out) :
    out.ties_sum_prod = acc.ties_sum_prod + ties_ref 2 lx ly := by
  match lx, ly with
  | [], [] =>
    rw [merge_loop] at h
    cases h
    rw [ties_ref]
    omega
  | ix :: lx', [] =>
    rw [merge_loop] at h
    cases henf : enforce_order (some ix) lx'.head? with
    | error e => rw [henf] at h; cases h
    | ok p =>
      rw [henf] at h
      have ih := merge_loop_ties lx' [] _ out h
      rw [ties_ref]
      simp only [xUpd, Nat.add_zero] at ih
      omega
  | [], iy :: ly' =>
    rw [merge_loop] at h
    cases henf : enforce_order (some iy) ly'.head? with
    | error e => rw [henf] at h; cases h
    | ok p =>
      rw [henf] at h
      have ih := merge_loop_ties [] ly' _ out h
      rw [ties_ref]
      simp only [yUpd, Nat.add_zero] at ih
      omega
  | ix :: lx', iy :: ly' =>
    rw [merge_loop] at h
    by_cases hlt : ix.1 < iy.1
    · rw [if_pos hlt] at h
      cases henf : enforce_order (some ix) lx'.head? with
      | error e => rw [henf] at h; cases h
      | ok p =>
        rw [henf] at h
        have ih := merge_loop_ties lx' (iy :: ly') _ out h
        rw [ties_ref, if_pos hlt]
        simp only [xUpd, Nat.add_zero] at ih
        omega
    · rw [if_neg hlt] at h
      by_cases hgt : iy.1 < ix.1
      · rw [if_pos hgt] at h
        cases henf : enforce_order (some iy) ly'.head? with
        | error e => rw [henf] at h; cases h
        | ok p =>
          rw [henf] at h
          have ih := merge_loop_ties (ix :: lx') ly' _ out h
          rw [ties_ref, if_neg hlt, if_pos hgt]
          simp only [yUpd, Nat.add_zero] at ih
          omega
      · rw [if_neg hgt] at h
        cases henfx : enforce_order (some ix) lx'.head? with
        | error e => rw [henfx] at h; cases h
        | ok p =>
          rw [henfx] at h
          cases henfy : enforce_order (some iy) ly'.head? with
          | error e => rw [henfy] at h; cases h
          | ok q =>
            rw [henfy] at h
            have ih := merge_loop_ties lx' ly' _ out h
            rw [ties_ref, if_neg hlt, if_neg hgt]
            simp only [tUpd] at ih
            rw [Nat.add_comm iy.2 ix.2] at ih
            omega
termination_by lx.length + ly.length
decreasing_by all_goals simp +arith

/-- The ordering check on advancing past a consumed item succeeds exactly when
the next head (if any) is strictly larger. -/
lemma enforce_order_head (i : ℚ × ℕ) (l : List (ℚ × ℕ)) :
    (∀ j ∈ l.head?, i.1 < j.1) →
      enforce_order (some i) l.head? = .ok (some (l.head?.getD i)) := by
  cases l with
  | nil => intro _; simp [enforce_order]
  | cons j l' =>
    intro hj
    simpa [enforce_order] using hj j rfl

lemma enforce_order_head_err (i : ℚ × ℕ) (l : List (ℚ × ℕ))
    (hj : ¬ ∀ j ∈ l.head?, i.1 < j.1) :
    enforce_order (some i) l.head? = .error orderErrMsg := by
  cases l with
  | nil => exact absurd (by simp) hj
  | cons j l' =>
    simp only [List.head?_cons, Option.mem_def, Option.some.injEq, forall_eq'] at hj
    simpa [enforce_order] using hj

/-- The merge loop succeeds from any accumulator exactly when both remaining
grouped sequences are strictly increasing in value; otherwise it fails with
the ordering-violation message. -/
lemma merge_loop_ok_iff (lx ly : List (ℚ × ℕ)) (acc : MergeAcc) :
    ((∃ out, merge_loop lx ly acc = .ok out) ↔ SortedPairs lx ∧ SortedPairs ly) ∧
      (¬ (SortedPairs lx ∧ SortedPairs ly) → merge_loop lx ly acc = .error orderErrMsg) := by
  match lx, ly with
  | [], [] =>
    rw [merge_loop]
    refine ⟨⟨fun _ => ⟨List.chain'_nil, List.chain'_nil⟩, fun _ => ⟨acc, rfl⟩⟩, fun hc => ?_⟩
    exact absurd ⟨List.chain'_nil, List.chain'_nil⟩ hc
  | ix :: lx', [] =>
    rw [merge_loop]
    by_cases hj : ∀ j ∈ lx'.head?, ix.1 < j.1
    · rw [enforce_order_head ix lx' hj]
      have ih := merge_loop_ok_iff lx' [] (xUpd acc ix)
      constructor
      · rw [ih.1]
        unfold SortedPairs
        rw [List.chain'_cons']
        tauto
      · intro hc
        apply ih.2
        unfold SortedPairs at hc ⊢
        rw [List.chain'_cons'] at hc
        tauto
    · rw [enforce_order_head_err ix lx' hj]
      refine ⟨⟨fun ⟨out, hout⟩ => absurd hout (by simp), fun hs => ?_⟩, fun _ => rfl⟩
      unfold SortedPairs at hs
      rw [List.chain'_cons'] at hs
      exact absurd hs.1.1 hj
  | [], iy :: ly' =>
    rw [merge_loop]
    by_cases hj : ∀ j ∈ ly'.head?, iy.1 < j.1
    · rw [enforce_order_head iy ly' hj]
      have ih := merge_loop_ok_iff [] ly' (yUpd acc iy)
      constructor
      · rw [ih.1]
        unfold SortedPairs
        rw [List.chain'_cons' (l := ly')]
        tauto
      · intro hc
        apply ih.2
        unfold SortedPairs at hc ⊢
        rw [List.chain'_cons' (l := ly')] at hc
        tauto
    · rw [enforce_order_head_err iy ly' hj]
      refine ⟨⟨fun ⟨out, hout⟩ => absurd hout (by simp), fun hs => ?_⟩, fun _ => rfl⟩
      unfold SortedPairs at hs
      rw [List.chain'_cons' (l := ly')] at hs
      exact absurd hs.2.1 hj
  | ix :: lx', iy :: ly' =>
    rw [merge_loop]
    by_cases hlt : ix.1 < iy.1
    · rw [if_pos hlt]
      by_cases hj : ∀ j ∈ lx'.head?, ix.1 < j.1
      · rw [enforce_order_head ix lx' hj]
        have ih := merge_loop_ok_iff lx' (iy :: ly') (xUpd acc ix)
        constructor
        · rw [ih.1]
          unfold SortedPairs
          rw [List.chain'_cons' (l := lx')]
          tauto
        · intro hc
          apply ih.2
          unfold SortedPairs at hc ⊢
          rw [List.chain'_cons' (l := lx')] at hc
          tauto
      · rw [enforce_order_head_err ix lx' hj]
        refine ⟨⟨fun ⟨out, hout⟩ => absurd hout (by simp), fun hs => ?_⟩, fun _ => rfl⟩
        unfold SortedPairs at hs
        rw [List.chain'_cons' (l := lx')] at hs
        exact absurd hs.1.1 hj
    · rw [if_neg hlt]
      by_cases hgt : iy.1 < ix.1
      · rw [if_pos hgt]
        by_cases hj : ∀ j ∈ ly'.head?, iy.1 < j.1
        · rw [enforce_order_head iy ly' hj]
          have ih := merge_loop_ok_iff (ix :: lx') ly' (yUpd acc iy)
          constructor
          · rw [ih.1]
            unfold SortedPairs
            rw [List.chain'_cons' (l := ly')]
            tauto
          · intro hc
            apply ih.2
            unfold SortedPairs at hc ⊢
            rw [List.chain'_cons' (l := ly')] at hc
            tauto
        · rw [enforce_order_head_err iy ly' hj]
          refine ⟨⟨fun ⟨out, hout⟩ => absurd hout (by simp), fun hs => ?_⟩, fun _ => rfl⟩
          unfold SortedPairs at hs
          rw [List.chain'_cons' (l := ly')] at hs
          exact absurd hs.2.1 hj
      · rw [if_neg hgt]
        by_cases hjx : ∀ j ∈ lx'.head?, ix.1 < j.1
        · rw [enforce_order_head ix lx' hjx]
          by_cases hjy : ∀ j ∈ ly'.head?, iy.1 < j.1
          · rw [enforce_order_head iy ly' hjy]
            have ih := merge_loop_ok_iff lx' ly' (tUpd acc ix iy)
            constructor
            · rw [ih.1]
              unfold SortedPairs
              rw [List.chain'_cons' (l := lx'), List.chain'_cons' (l := ly')]
              tauto
            · intro hc
              apply ih.2
              unfold SortedPairs at hc ⊢
              rw [List.chain'_cons' (l := lx'), List.chain'_cons' (l := ly')] at hc
              tauto
          · rw [enforce_order_head_err iy ly' hjy]
            refine ⟨⟨fun ⟨out, hout⟩ => absurd hout (by simp), fun hs => ?_⟩, fun _ => rfl⟩
            unfold SortedPairs at hs
            rw [List.chain'_cons' (l := ly')] at hs
            exact absurd hs.2.1 hjy
        · rw [enforce_order_head_err ix lx' hjx]
          refine ⟨⟨fun ⟨out, hout⟩ => absurd hout (by simp), fun hs => ?_⟩, fun _ => rfl⟩
          unfold SortedPairs at hs
          rw [List.chain'_cons' (l := lx')] at hs
          exact absurd hs.1.1 hjx
termination_by lx.length + ly.length
decreasing_by all_goals simp +arith

/-- The zero accumulator satisfies the merge invariant. -/
lemma mergeInit_inv : MergeInv mergeInit := by
  refine ⟨?_, ?_, ?_, ?_⟩ <;> norm_num [mergeInit, MergeInv]

/-- C1: for every pair of grouped input sequences accepted by
`RankSum::from_iter_with_counts`, the merge's X-side rank sum and the
returned `w` (the Y-side rank sum) satisfy
`rank_sum_x + w = (1 + n_x + n_y)(n_x + n_y)/2` for the final sample sizes,
established before the constructor returns success. -/
theorem rank_sum_complementarity (lx ly : List (ℚ × ℕ)) (acc : MergeAcc)
    (h : merge_loop lx ly mergeInit = .ok acc) :
    RankSum.from_iter_with_counts lx ly =
        .ok ⟨acc.n_x, acc.n_y, acc.rank_sum_y, acc.ties_sum_prod⟩ ∧
      acc.rank_sum_x + acc.rank_sum_y =
        (1 + (acc.n_x : ℚ) + (acc.n_y : ℚ)) * ((acc.n_x : ℚ) + (acc.n_y : ℚ)) / 2 := by
  obtain ⟨h1, h2, h3, h4⟩ := merge_loop_mergeInv lx ly mergeInit acc h mergeInit_inv
  constructor
  · rw [RankSum.from_iter_with_counts, h]
  · rw [h2, h1]
    ring

theorem rank_sum_complementarity_witness :
    RankSum.from_iter_with_counts [(1, 1)] [(2, 1)] = .ok ⟨1, 1, 2, 0⟩ ∧
      (1 : ℚ) + 2 = (1 + 1 + 1) * (1 + 1) / 2 := by
  have h := rank_sum_complementarity [(1, 1)] [(2, 1)] ⟨1, 1, 0, 1, 2, 2⟩ (by
    simp [merge_loop, mergeInit, enforce_order, rank_item, tieTerm, xUpd, yUpd, tUpd]
    norm_num)
  refine ⟨h.1, ?_⟩
  norm_num

/-- C2 (counterexample): the claim that each distinct combined value
contributes its tie term exactly once fails on the code: for
`x = [(1, 1)]`, `y = [(1, 1)]` the constructor succeeds with
`ties_sum_prod = 12`, whereas the once-per-distinct-value sum `ties_ref 1`
is `(2-1)·2·(2+1) = 6`. -/
theorem ties_once_per_value_refuted :
    RankSum.from_iter_with_counts [(1, 1)] [(1, 1)] = .ok ⟨1, 1, 3/2, 12⟩ ∧
      ties_ref 1 [(1, 1)] [(1, 1)] = 6 ∧ (12 : ℕ) ≠ 6 := by
  refine ⟨?_, ?_, by decide⟩
  · simp [RankSum.from_iter_with_counts, merge_loop, mergeInit, enforce_order, rank_item,
      tieTerm, xUpd, yUpd, tUpd]
    norm_num
  · rw [ties_ref]
    norm_num [ties_ref, tieTerm]

/-- C2 (amended): upon successful construction, `ties_sum_prod` equals the
sum over the distinct values of the combined samples of
`(m-1)·m·(m+1)` with `m` the total multiplicity, except that a value present
in both samples contributes the term twice — once per side — rather than
once (`ties_ref 2`). -/
theorem ties_sum_prod_per_side (lx ly : List (ℚ × ℕ)) (rs : RankSum)
    (h : RankSum.from_iter_with_counts lx ly = .ok rs) :
    rs.ties_sum_prod = ties_ref 2 lx ly := by
  rw [RankSum.from_iter_with_counts] at h
  cases hm : merge_loop lx ly mergeInit with
  | error e => rw [hm] at h; cases h
  | ok acc =>
    rw [hm] at h
    cases h
    have := merge_loop_ties lx ly mergeInit acc hm
    simpa [mergeInit] using this

theorem ties_sum_prod_per_side_witness :
    (RankSum.mk 1 1 (3/2) 12).ties_sum_prod = ties_ref 2 [(1, 1)] [(1, 1)] :=
  ties_sum_prod_per_side [(1, 1)] [(1, 1)] _ (by
    simp [RankSum.from_iter_with_counts, merge_loop, mergeInit, enforce_order, rank_item,
      tieTerm, xUpd, yUpd, tUpd]
    norm_num)

/-- C8: for every `RankSum` successfully constructed, both Mann-Whitney
statistics lie between `0` and `n_x * n_y`. -/
theorem mann_whitney_u_bounds (lx ly : List (ℚ × ℕ)) (rs : RankSum)
    (h : RankSum.from_iter_with_counts lx ly = .ok rs) :
    0 ≤ rs.mann_whitney_u_y ∧ rs.mann_whitney_u_y ≤ (rs.n_x : ℚ) * (rs.n_y : ℚ) ∧
      0 ≤ rs.mann_whitney_u_x ∧ rs.mann_whitney_u_x ≤ (rs.n_x : ℚ) * (rs.n_y : ℚ) := by
  rw [RankSum.from_iter_with_counts] at h
  cases hm : merge_loop lx ly mergeInit with
  | error e => rw [hm] at h; cases h
  | ok acc =>
    rw [hm] at h
    cases h
    obtain ⟨h1, h2, h3, h4⟩ := merge_loop_mergeInv lx ly mergeInit acc hm mergeInit_inv
    rw [h1] at h4
    simp only [RankSum.mann_whitney_u_y, RankSum.mann_whitney_u_x]
    refine ⟨by linarith, by nlinarith, by nlinarith, by nlinarith⟩

theorem mann_whitney_u_bounds_witness :
    0 ≤ (RankSum.mk 1 1 2 0).mann_whitney_u_y ∧
      (RankSum.mk 1 1 2 0).mann_whitney_u_y ≤ ((1 : ℕ) : ℚ) * ((1 : ℕ) : ℚ) ∧
      0 ≤ (RankSum.mk 1 1 2 0).mann_whitney_u_x ∧
      (RankSum.mk 1 1 2 0).mann_whitney_u_x ≤ ((1 : ℕ) : ℚ) * ((1 : ℕ) : ℚ) :=
  mann_whitney_u_bounds [(1, 1)] [(2, 1)] (RankSum.mk 1 1 2 0) (by
    simp [RankSum.from_iter_with_counts, merge_loop, mergeInit, enforce_order, rank_item,
      tieTerm, xUpd, yUpd, tUpd]
    norm_num)

/-- C5: construction succeeds iff, within each input sequence separately,
consecutively emitted groups have strictly increasing values; any violation
yields the ordering-violation error (so no `RankSum` is produced); in
particular `from_iter [1,2,1] []` fails while `from_iter [] []` succeeds with
`n_x = n_y = 0`. -/
theorem construction_ok_iff_sorted :
    (∀ lx ly : List (ℚ × ℕ),
        ((∃ rs, RankSum.from_iter_with_counts lx ly = .ok rs) ↔
            SortedPairs lx ∧ SortedPairs ly) ∧
          (¬ (SortedPairs lx ∧ SortedPairs ly) →
            RankSum.from_iter_with_counts lx ly = .error orderErrMsg)) ∧
      RankSum.from_iter [1, 2, 1] [] = .error orderErrMsg ∧
      RankSum.from_iter [] [] = .ok ⟨0, 0, 0, 0⟩ := by
  refine ⟨fun lx ly => ?_, ?_, ?_⟩
  · have h := merge_loop_ok_iff lx ly mergeInit
    constructor
    · constructor
      · rintro ⟨rs, hrs⟩
        rw [RankSum.from_iter_with_counts] at hrs
        cases hm : merge_loop lx ly mergeInit with
        | error e => rw [hm] at hrs; cases hrs
        | ok acc => exact h.1.mp ⟨acc, hm⟩
      · intro hs
        obtain ⟨out, hout⟩ := h.1.mpr hs
        exact ⟨_, by rw [RankSum.from_iter_with_counts, hout]⟩
    · intro hc
      rw [RankSum.from_iter_with_counts, h.2 hc]
  · simp [RankSum.from_iter, RankSum.from_iter_with_counts, iter_with_counts, iterWithCountsAux,
      merge_loop, mergeInit, enforce_order, rank_item, tieTerm, xUpd, yUpd, tUpd]
  · simp [RankSum.from_iter, RankSum.from_iter_with_counts, iter_with_counts,
      merge_loop, mergeInit]

theorem construction_ok_iff_sorted_witness :
    RankSum.from_iter_with_counts [(1, 1), (0, 2)] [] = .error orderErrMsg :=
  (construction_ok_iff_sorted.1 [(1, 1), (0, 2)] []).2 (by
    norm_num [SortedPairs, List.chain'_cons])

/-- C7: for every `RankSum`, `mann_whitney_u_y = w - n_y (n_y + 1)/2`,
`mann_whitney_u_x = n_x n_y - mann_whitney_u_y`, and the complementarity
`mann_whitney_u_x + mann_whitney_u_y = n_x * n_y` holds unconditionally. -/
theorem mann_whitney_u_complementarity (rs : RankSum) :
    rs.mann_whitney_u_y = rs.w - (rs.n_y : ℚ) * ((rs.n_y : ℚ) + 1) / 2 ∧
      rs.mann_whitney_u_x = (rs.n_x : ℚ) * (rs.n_y : ℚ) - rs.mann_whitney_u_y ∧
      rs.mann_whitney_u_x + rs.mann_whitney_u_y = (rs.n_x : ℚ) * (rs.n_y : ℚ) := by
  refine ⟨rfl, rfl, ?_⟩
  rw [RankSum.mann_whitney_u_x]
  ring

/-- C9: `HypTestResult::new` stores its arguments unchanged and accepts
`Alt(alt_hyp)` exactly when `p < alpha`, `Null` otherwise (used directly and
by `RankSum::test`). -/
theorem hyp_test_result_new_spec (p alpha : ℚ) (alt_hyp : AltHyp) :
    (HypTestResult.new p alpha alt_hyp).p = p ∧
      (HypTestResult.new p alpha alt_hyp).alpha = alpha ∧
      (HypTestResult.new p alpha alt_hyp).alt_hyp = alt_hyp ∧
      ((HypTestResult.new p alpha alt_hyp).accepted = Hyp.Alt alt_hyp ↔ p < alpha) ∧
      (¬ p < alpha → (HypTestResult.new p alpha alt_hyp).accepted = Hyp.Null) := by
  by_cases h : p < alpha <;> simp [HypTestResult.new, h]

theorem hyp_test_result_new_spec_witness :
    (HypTestResult.new (1/4) (1/2) AltHyp.Ne).accepted = Hyp.Alt AltHyp.Ne :=
  (hyp_test_result_new_spec (1/4) (1/2) AltHyp.Ne).2.2.2.1.mpr (by norm_num)

lemma iterWithCountsAux_flatten {α : Type} [DecidableEq α] (rest : List α) :
    ∀ (prev : α) (c : ℕ),
      ((iterWithCountsAux prev c rest).flatMap fun p => List.replicate p.2 p.1) =
        List.replicate c prev ++ rest := by
  induction rest with
  | nil => intro prev c; simp [iterWithCountsAux]
  | cons v r ih =>
    intro prev c
    rw [iterWithCountsAux]
    by_cases hv : v = prev
    · rw [if_pos hv, ih, hv, List.replicate_succ']
      simp
    · rw [if_neg hv]
      simp [ih]

lemma iterWithCountsAux_counts {α : Type} [DecidableEq α] (rest : List α) :
    ∀ (prev : α) (c : ℕ), 1 ≤ c → ∀ p ∈ iterWithCountsAux prev c rest, 1 ≤ p.2 := by
  induction rest with
  | nil =>
    intro prev c hc p hp
    simp only [iterWithCountsAux, List.mem_singleton] at hp
    subst hp
    exact hc
  | cons v r ih =>
    intro prev c hc p hp
    rw [iterWithCountsAux] at hp
    by_cases hv : v = prev
    · rw [if_pos hv] at hp
      exact ih prev (c + 1) (by omega) p hp
    · rw [if_neg hv] at hp
      rcases List.mem_cons.mp hp with h | h
      · subst h
        exact hc
      · exact ih v 1 le_rfl p h

/-- C10: expanding the output of `iter_with_counts` — replacing each emitted
`(value, count)` pair by `count` copies of `value`, in emission order —
reconstructs the source sequence exactly; every emitted count is `≥ 1` and
the counts sum to the source length. -/
theorem iter_with_counts_expansion {α : Type} [DecidableEq α] (xs : List α) :
    ((iter_with_counts xs).flatMap fun p => List.replicate p.2 p.1) = xs ∧
      (∀ p ∈ iter_with_counts xs, 1 ≤ p.2) ∧
      ((iter_with_counts xs).map Prod.snd).sum = xs.length := by
  cases xs with
  | nil => simp [iter_with_counts]
  | cons v rest =>
    rw [iter_with_counts]
    refine ⟨?_, iterWithCountsAux_counts rest v 1 le_rfl, ?_⟩
    · rw [iterWithCountsAux_flatten]
      simp
    · have h := congrArg List.length (iterWithCountsAux_flatten rest v 1)
      simpa [List.length_flatMap, Function.comp_def, Nat.add_comm] using h

/-- C3: in every merge step consuming a cohort (`count_i` items on the
advancing side, `count_other` tied items from the other side, `count_other =
0` when the head values differ, `count = count_i + count_other`), the midrank
is `prev_rank + (count + 1)/2`, the advancing side's rank sum grows by
`count_i` times that midrank, and `prev_rank` advances by `count`; in a tied
cohort both sides receive the same midrank computed from the same
`prev_rank`.  The first conjunct states the `rank_item` arithmetic; the
`gUpd` equations spell the branch updates out in exactly these terms (with
the one shared midrank term for both sides of a tied cohort); the remaining
conjuncts show every successful loop step reduces through the corresponding
update. -/
theorem cohort_midrank_step :
    (∀ (count_i count_other : ℕ) (prev_rank : ℚ),
        rank_item count_i count_other prev_rank =
          ((count_i : ℚ) * (prev_rank + (((count_i + count_other : ℕ) : ℚ) + 1) / 2),
            prev_rank + ((count_i + count_other : ℕ) : ℚ))) ∧
      (∀ (acc : MergeAcc) (ix iy : ℚ × ℕ),
          tUpd acc ix iy =
            gUpd acc ix.2 iy.2
              (acc.ties_sum_prod + tieTerm (ix.2 + iy.2) + tieTerm (iy.2 + ix.2))) ∧
      (∀ (acc : MergeAcc) (ix : ℚ × ℕ),
          xUpd acc ix = gUpd acc ix.2 0 (acc.ties_sum_prod + tieTerm (ix.2 + 0))) ∧
      (∀ (acc : MergeAcc) (iy : ℚ × ℕ),
          yUpd acc iy = gUpd acc 0 iy.2 (acc.ties_sum_prod + tieTerm (iy.2 + 0))) ∧
      (∀ (ix iy : ℚ × ℕ) (lx ly : List (ℚ × ℕ)) (acc out : MergeAcc), ix.1 = iy.1 →
          merge_loop (ix :: lx) (iy :: ly) acc = .ok out →
          merge_loop lx ly (tUpd acc ix iy) = .ok out) ∧
      (∀ (ix : ℚ × ℕ) (lx : List (ℚ × ℕ)) (acc out : MergeAcc),
          merge_loop (ix :: lx) [] acc = .ok out →
          merge_loop lx [] (xUpd acc ix) = .ok out) ∧
      (∀ (ix iy : ℚ × ℕ) (lx ly : List (ℚ × ℕ)) (acc out : MergeAcc), ix.1 < iy.1 →
          merge_loop (ix :: lx) (iy :: ly) acc = .ok out →
          merge_loop lx (iy :: ly) (xUpd acc ix) = .ok out) ∧
      (∀ (iy : ℚ × ℕ) (ly : List (ℚ × ℕ)) (acc out : MergeAcc),
          merge_loop [] (iy :: ly) acc = .ok out →
          merge_loop [] ly (yUpd acc iy) = .ok out) ∧
      (∀ (ix iy : ℚ × ℕ) (lx ly : List (ℚ × ℕ)) (acc out : MergeAcc), iy.1 < ix.1 →
          merge_loop (ix :: lx) (iy :: ly) acc = .ok out →
          merge_loop (ix :: lx) ly (yUpd acc iy) = .ok out) := by
  refine ⟨fun ci co pr => rfl, tUpd_eq_gUpd, xUpd_eq_gUpd, yUpd_eq_gUpd, ?_, ?_, ?_, ?_, ?_⟩
  · intro ix iy lx ly acc out heq h
    rw [merge_loop] at h
    rw [if_neg (by rw [heq]; exact lt_irrefl _), if_neg (by rw [heq]; exact lt_irrefl _)] at h
    cases henfx : enforce_order (some ix) lx.head? with
    | error e => rw [henfx] at h; cases h
    | ok p =>
      rw [henfx] at h
      cases henfy : enforce_order (some iy) ly.head? with
      | error e => rw [henfy] at h; cases h
      | ok q => rw [henfy] at h; exact h
  · intro ix lx acc out h
    rw [merge_loop] at h
    cases henf : enforce_order (some ix) lx.head? with
    | error e => rw [henf] at h; cases h
    | ok p => rw [henf] at h; exact h
  · intro ix iy lx ly acc out hlt h
    rw [merge_loop, if_pos hlt] at h
    cases henf : enforce_order (some ix) lx.head? with
    | error e => rw [henf] at h; cases h
    | ok p => rw [henf] at h; exact h
  · intro iy ly acc out h
    rw [merge_loop] at h
    cases henf : enforce_order (some iy) ly.head? with
    | error e => rw [henf] at h; cases h
    | ok p => rw [henf] at h; exact h
  · intro ix iy lx ly acc out hgt h
    rw [merge_loop, if_neg (asymm hgt), if_pos hgt] at h
    cases henf : enforce_order (some iy) ly.head? with
    | error e => rw [henf] at h; cases h
    | ok p => rw [henf] at h; exact h

theorem cohort_midrank_step_witness :
    rank_item 1 1 0 = (3/2, 2) ∧
      merge_loop [] [] (tUpd mergeInit (1, 1) (1, 1)) = .ok ⟨1, 1, 12, 3/2, 3/2, 2⟩ := by
  constructor
  · rw [cohort_midrank_step.1 1 1 0]
    norm_num
  · have h := cohort_midrank_step.2.2.2.2.1 (1, 1) (1, 1) [] [] mergeInit
      ⟨1, 1, 12, 3/2, 3/2, 2⟩ rfl (by
        simp [merge_loop, mergeInit, enforce_order, rank_item, tieTerm, tUpd]
        norm_num)
    exact h

/-- C4: the checked `z()` (modelled from the spec, the unchecked float
version being the only one in the sources) fails exactly on degenerate
inputs — when `n_x = 0` or `n_y = 0`, and with a "too many rank ties" error
when the tie-corrected variance `var0_w` is `≤ 0` — and otherwise returns the
(finite, since real) value `-(w - e0_w)/sqrt(var0_w)`. -/
theorem z_checked_error_characterization (rs : RankSum) :
    (rs.n_x = 0 ∨ rs.n_y = 0 → rs.z_checked = .error "sample size must be positive") ∧
      (rs.n_x ≠ 0 → rs.n_y ≠ 0 → rs.var0_w ≤ 0 →
        rs.z_checked = .error "too many rank ties") ∧
      (rs.n_x ≠ 0 → rs.n_y ≠ 0 → 0 < rs.var0_w →
        rs.z_checked = .ok (-(((rs.w : ℝ) - (rs.e0_w : ℝ)) / Real.sqrt (rs.var0_w : ℝ)))) ∧
      ((∃ z, rs.z_checked = .ok z) ↔ rs.n_x ≠ 0 ∧ rs.n_y ≠ 0 ∧ 0 < rs.var0_w) := by
  unfold RankSum.z_checked
  by_cases h0 : rs.n_x = 0 ∨ rs.n_y = 0
  · rw [if_pos h0]
    refine ⟨fun _ => rfl, fun hx hy _ => absurd h0 (by tauto),
      fun hx hy _ => absurd h0 (by tauto), ?_⟩
    constructor
    · rintro ⟨z, hz⟩
      cases hz
    · rintro ⟨hx, hy, _⟩
      exact absurd h0 (by tauto)
  · rw [if_neg h0]
    by_cases hv : rs.var0_w ≤ 0
    · rw [if_pos hv]
      refine ⟨fun hc => absurd hc h0, fun _ _ _ => rfl,
        fun _ _ hpos => absurd hv (not_le.mpr hpos), ?_⟩
      constructor
      · rintro ⟨z, hz⟩
        cases hz
      · rintro ⟨_, _, hpos⟩
        exact absurd hv (not_le.mpr hpos)
    · rw [if_neg hv]
      push_neg at h0
      refine ⟨fun hc => absurd hc (by tauto), fun _ _ hle => absurd hle hv,
        fun _ _ _ => rfl, ?_⟩
      exact ⟨fun _ => ⟨h0.1, h0.2, lt_of_not_le hv⟩, fun _ => ⟨_, rfl⟩⟩

theorem z_checked_error_characterization_witness :
    (RankSum.mk 1 1 2 0).z_checked =
        .ok (-((((RankSum.mk 1 1 2 0).w : ℝ) - ((RankSum.mk 1 1 2 0).e0_w : ℝ)) /
          Real.sqrt ((RankSum.mk 1 1 2 0).var0_w : ℝ))) ∧
      (RankSum.mk 0 1 0 0).z_checked = .error "sample size must be positive" ∧
      (RankSum.mk 5 5 (55/2) 1014).z_checked = .error "too many rank ties" :=
  ⟨(z_checked_error_characterization (RankSum.mk 1 1 2 0)).2.2.1 (by decide) (by decide)
      (by norm_num [RankSum.var0_w]),
    (z_checked_error_characterization (RankSum.mk 0 1 0 0)).1 (Or.inl rfl),
    (z_checked_error_characterization (RankSum.mk 5 5 (55/2) 1014)).2.1 (by decide) (by decide)
      (by norm_num [RankSum.var0_w])⟩

/-- C6: the checked `test(alt_hyp, alpha)` (modelled from the spec, the
unchecked version being the only one in the sources) fails whenever `alpha`
lies outside the open interval `(0, 1)`, and only when `0 < alpha < 1` does
it compute `p` (via the abstracted collaborator `zp`) and build the
`HypTestResult` from it. -/
theorem test_alpha_gate (zp : RankSum → AltHyp → Except String ℚ) (rs : RankSum)
    (alt_hyp : AltHyp) (alpha : ℚ) :
    (alpha ≤ 0 ∨ 1 ≤ alpha →
        RankSum.test zp rs alt_hyp alpha =
          .error "alpha must be in the open interval (0, 1)") ∧
      (∀ r, RankSum.test zp rs alt_hyp alpha = .ok r →
        (0 < alpha ∧ alpha < 1) ∧
          ∃ p, zp rs alt_hyp = .ok p ∧ r = HypTestResult.new p alpha alt_hyp) := by
  unfold RankSum.test
  by_cases hb : alpha ≤ 0 ∨ 1 ≤ alpha
  · rw [if_pos hb]
    exact ⟨fun _ => rfl, fun r hr => by cases hr⟩
  · rw [if_neg hb]
    refine ⟨fun hc => absurd hc hb, fun r hr => ?_⟩
    have hab := not_or.mp hb
    cases hz : zp rs alt_hyp with
    | error e => rw [hz] at hr; cases hr
    | ok p =>
      rw [hz] at hr
      cases hr
      exact ⟨⟨not_le.mp hab.1, not_le.mp hab.2⟩, p, rfl, rfl⟩

theorem test_alpha_gate_witness :
    RankSum.test (fun _ _ => .ok (1/2)) (RankSum.mk 1 1 2 0) AltHyp.Ne 1 =
        .error "alpha must be in the open interval (0, 1)" ∧
      (0 < (1/20 : ℚ) ∧ (1/20 : ℚ) < 1) := by
  constructor
  · exact (test_alpha_gate (fun _ _ => .ok (1/2)) (RankSum.mk 1 1 2 0) AltHyp.Ne 1).1
      (Or.inr le_rfl)
  · exact ((test_alpha_gate (fun _ _ => .ok (1/2)) (RankSum.mk 1 1 2 0) AltHyp.Ne (1/20)).2
      (HypTestResult.new (1/2) (1/20) AltHyp.Ne) (by norm_num [RankSum.test])).1
